import Mathlib

/-!
Shallow embedding of the RLP codec and Merkle Patricia Trie engine of the
ejit-evm repository (src/ethereum/ethereum_rlp/rlp.rs and
src/ethereum/cancun/trie.rs).

Bytes are modelled as natural numbers (values below 256) and byte buffers as
lists of naturals.  The Rust Bytes and Verbatim newtypes both wrap a byte
vector and are modelled as plain lists.  The keccak256 primitive comes from
the external tiny_keccak crate, so it is kept abstract: every definition that
needs it takes it as an explicit function parameter.  BTreeMap is modelled as
an association list kept in ascending key order (BTreeMap iteration order);
map insertion is order-preserving sorted insertion and removal is filtering.
-/

namespace EjitEvm

/-- RLPException from src/ethereum/ethereum_rlp/exceptions.rs: decoding
errors, encoding errors and the recoverable destination-too-small error. -/
inductive RLPException where
  | DecodingError (msg : String)
  | EncodingError (msg : String)
  | DestTooSmall (n : Nat)
  deriving DecidableEq, Repr

/-- Big-endian bytes of n padded to width w, as in the Rust to_be_bytes
methods of the fixed-width integer types (w is the byte size of the type). -/
def to_be_bytes (w : Nat) (n : Nat) : List Nat :=
  match w with
  | 0 => []
  | w + 1 => to_be_bytes w (n / 256) ++ [n % 256]

/-- The leading-zero stripping done before encode_bytes in every integer
encode impl: iter().position(|b| *b != 0) followed by slicing. -/
def strip_lz (l : List Nat) : List Nat := l.dropWhile (fun b => b = 0)

/-- Reading a big-endian byte slice as a number: from_be_bytes after
right-justified zero padding, and also decode_length in rlp.rs. -/
def from_be_bytes (l : List Nat) : Nat := l.foldl (fun a b => a * 256 + b) 0

/-- encode_bytes from rlp.rs: single byte below 0x80 stands for itself,
strings shorter than 0x38 get a one-byte 0x80+len prefix, longer strings get
a 0xB7+k length-of-length prefix followed by the minimal big-endian length.
The Rust function appends to its buffer argument. -/
def encode_bytes (buffer : List Nat) (raw_bytes : List Nat) : List Nat :=
  let len_raw_data := raw_bytes.length
  if len_raw_data = 1 ∧ raw_bytes.headD 0 < 0x80 then
    buffer ++ [raw_bytes.headD 0]
  else if len_raw_data < 0x38 then
    buffer ++ [0x80 + len_raw_data] ++ raw_bytes
  else
    let len_raw_data_as_be := strip_lz (to_be_bytes 8 len_raw_data)
    buffer ++ [0xB7 + len_raw_data_as_be.length] ++ len_raw_data_as_be ++ raw_bytes

/-- encode_joined_encodings from rlp.rs: the list prefix (0xC0 short form,
0xF7+k long form) wrapped around already-concatenated member encodings. -/
def encode_joined_encodings (dest : List Nat) (joined_encodings : List Nat) : List Nat :=
  let len_joined_encodings := joined_encodings.length
  if len_joined_encodings < 0x38 then
    dest ++ [0xC0 + len_joined_encodings] ++ joined_encodings
  else
    let len_as_be := strip_lz (to_be_bytes 8 len_joined_encodings)
    dest ++ [0xF7 + len_as_be.length] ++ len_as_be ++ joined_encodings

/-- decode_to_bytes from rlp.rs.  The Rust function takes a cursor into the
input and a fixed-size destination slice which it zero-fills and then writes
right-justified; here the destination is its length and the result is the
written destination contents together with the advanced cursor. -/
def decode_to_bytes (buffer : List Nat) (dest_len : Nat) :
    Except RLPException (List Nat × List Nat) :=
  match buffer with
  | [] => .error (.DecodingError "expected bytes, got a sequence")
  | b0 :: rest =>
    if b0 > 0xBF then
      .error (.DecodingError "expected bytes, got a sequence")
    else if b0 ≤ 0x80 then
      if dest_len < 1 then
        .error (.DestTooSmall 1)
      else
        .ok (List.replicate (dest_len - 1) 0 ++ [b0], rest)
    else if b0 ≤ 0xB7 then
      let len_raw_data := b0 - 0x80
      if len_raw_data ≥ (b0 :: rest).length then
        .error (.DecodingError "truncated")
      else if len_raw_data > dest_len then
        .error (.DestTooSmall len_raw_data)
      else
        let raw_data := rest.take len_raw_data
        if len_raw_data = 1 ∧ raw_data.headD 0 < 0x80 then
          .error (.DecodingError "incorrect length")
        else
          .ok (List.replicate (dest_len - len_raw_data) 0 ++ raw_data,
               rest.drop len_raw_data)
    else
      let decoded_data_start_idx := 1 + b0 - 0xB7
      if decoded_data_start_idx - 1 ≥ (b0 :: rest).length then
        .error (.DecodingError "truncated")
      else if rest.headD 0 = 0 then
        .error (.DecodingError "incorrect length")
      else
        let len_decoded_data := from_be_bytes (rest.take (decoded_data_start_idx - 1))
        if len_decoded_data < 0x38 then
          .error (.DecodingError "incorrect length")
        else
          let decoded_data_end_idx := decoded_data_start_idx + len_decoded_data
          if decoded_data_end_idx - 1 ≥ (b0 :: rest).length then
            .error (.DecodingError "truncated")
          else if len_decoded_data > dest_len then
            .error (.DestTooSmall len_decoded_data)
          else
            .ok (List.replicate (dest_len - len_decoded_data) 0 ++
                   (rest.drop (decoded_data_start_idx - 1)).take len_decoded_data,
                 (b0 :: rest).drop decoded_data_end_idx)

/-- The dynamically sized Bytes decoder from rlp.rs: a first probe with an
empty destination, and on DestTooSmall a resize to the reported size followed
by a retry.  Returns the decoded bytes and the advanced cursor. -/
def bytes_decode (buffer : List Nat) : Except RLPException (List Nat × List Nat) :=
  match decode_to_bytes buffer 0 with
  | .ok (_, rest) => .ok ([], rest)
  | .error (.DestTooSmall new_len) => decode_to_bytes buffer new_len
  | .error e => .error e

/-- Uint (u128) encoding from rlp.rs: 16 big-endian bytes with leading zeros
stripped, passed to encode_bytes. -/
def uint_encode (buffer : List Nat) (n : Nat) : List Nat :=
  encode_bytes buffer (strip_lz (to_be_bytes 16 n))

/-- Uint (u128) decoding from rlp.rs: decode_to_bytes into a 16-byte zeroed
destination, then from_be_bytes. -/
def uint_decode (buffer : List Nat) : Except RLPException (Nat × List Nat) :=
  match decode_to_bytes buffer 16 with
  | .ok (dest, rest) => .ok (from_be_bytes dest, rest)
  | .error e => .error e

/-- decode_to from rlp.rs, parameterized by the element decoder (the Extended
trait method): reject empty input, decode one value, reject leftover bytes. -/
def decode_to {α : Type} (dec : List Nat → Except RLPException (α × List Nat))
    (encoded_data : List Nat) : Except RLPException α :=
  if encoded_data.length ≤ 0 then
    .error (.DecodingError "Cannot decode empty bytestring")
  else
    match dec encoded_data with
    | .error e => .error e
    | .ok (res, rest) =>
      if rest.isEmpty then .ok res
      else .error (.DecodingError "too short")

/-!  Merkle Patricia Trie engine (src/ethereum/cancun/trie.rs). -/

/-- common_prefix_length from trie.rs: position of the first mismatch of the
two sequences, or the length of the shorter one. -/
def common_prefix_length : List Nat → List Nat → Nat
  | a :: as, b :: bs => if a = b then common_prefix_length as bs + 1 else 0
  | _, _ => 0

/-- bytes_to_nibble_list from trie.rs: two nibbles per byte, high first. -/
def bytes_to_nibble_list (bytes_ : List Nat) : List Nat :=
  bytes_.foldr (fun b acc => (b / 16 % 16) :: (b % 16) :: acc) []

/-- The loop packing two nibbles per byte in nibble_list_to_compact (byte
arithmetic is u8, hence the mod 256). -/
def pack_nibble_pairs : List Nat → List Nat
  | a :: b :: rest => ((16 * a + b) % 256) :: pack_nibble_pairs rest
  | _ => []

/-- nibble_list_to_compact from trie.rs: hex-prefix encoding of a nibble list
plus the leaf flag, flag nibble in the high half of the first byte. -/
def nibble_list_to_compact (x : List Nat) (is_leaf : Bool) : List Nat :=
  if x.length % 2 = 0 then
    (16 * (2 * (if is_leaf then 1 else 0))) :: pack_nibble_pairs x
  else
    ((16 * (2 * (if is_leaf then 1 else 0) + 1) + x.headD 0) % 256) ::
      pack_nibble_pairs (x.drop 1)

/-- InternalNode from trie.rs.  Subnode and value fields hold Verbatim byte
strings (already encoded child references and values). -/
inductive InternalNode where
  | LeafNode (rest_of_key : List Nat) (value : List Nat)
  | ExtensionNode (key_segment : List Nat) (subnode : List Nat)
  | BranchNode (subnodes : List (List Nat)) (value : List Nat)
  | None
  deriving DecidableEq, Repr

/-- encode_internal_node from trie.rs.  Leaf and extension nodes encode as
the two-element sequence of the compact key and the verbatim payload, branch
nodes as the 17-element sequence of the 16 verbatim children plus the inline
value, absent nodes as the empty byte string.  Encodings of 32 bytes or more
are replaced by their keccak256 hash, re-wrapped as an RLP byte string unless
the caller asked for the bare hash. -/
def encode_internal_node (keccak : List Nat → List Nat) (node : InternalNode)
    (rlp_the_hash : Bool) : List Nat :=
  let encoded :=
    match node with
    | .LeafNode rest_of_key value =>
        encode_joined_encodings []
          (encode_bytes [] (nibble_list_to_compact rest_of_key true) ++ value)
    | .ExtensionNode key_segment subnode =>
        encode_joined_encodings []
          (encode_bytes [] (nibble_list_to_compact key_segment false) ++ subnode)
    | .BranchNode subnodes value =>
        encode_joined_encodings [] (subnodes.flatten ++ value)
    | .None => [0x80]
  if encoded.length < 32 then encoded
  else if rlp_the_hash then encode_bytes [] (keccak encoded)
  else keccak encoded

/-- The shared-prefix search in patricialize: starting from the length of the
first key's suffix, fold the common prefix length with every key's suffix
(the early break at zero in the source does not change the result). -/
def shared_len (substring : List Nat) (obj : List (List Nat × List Nat))
    (level : Nat) : Nat :=
  obj.foldl (fun p kv => min p (common_prefix_length substring (kv.1.drop level)))
    substring.length

/-- The branch bucket for nibble i in patricialize: the entries whose key is
longer than level (indexing key[level] in the source requires this) routed by
the nibble at position level.  Map iteration and insertion both follow
ascending key order, so the bucket keeps the relative order of obj. -/
def bucket (obj : List (List Nat × List Nat)) (level : Nat) (i : Nat) :
    List (List Nat × List Nat) :=
  obj.filter (fun kv => decide (level < kv.1.length ∧ kv.1.getD level 0 = i))

lemma foldl_min_le_init {α : Type} (f : α → Nat) :
    ∀ (l : List α) (init : Nat), l.foldl (fun p e => min p (f e)) init ≤ init := by
  intro l
  induction l with
  | nil => simp
  | cons a l ih =>
    intro init
    calc (a :: l).foldl (fun p e => min p (f e)) init
        = l.foldl (fun p e => min p (f e)) (min init (f a)) := rfl
      _ ≤ min init (f a) := ih _
      _ ≤ init := Nat.min_le_left _ _

lemma foldl_min_le_mem {α : Type} (f : α → Nat) :
    ∀ (l : List α) (init : Nat) (x : α), x ∈ l →
      l.foldl (fun p e => min p (f e)) init ≤ f x := by
  intro l
  induction l with
  | nil => intro _ x hx; cases hx
  | cons a l ih =>
    intro init x hx
    rcases List.mem_cons.mp hx with rfl | hx
    · calc (x :: l).foldl (fun p e => min p (f e)) init
          = l.foldl (fun p e => min p (f e)) (min init (f x)) := rfl
        _ ≤ min init (f x) := foldl_min_le_init f l _
        _ ≤ f x := Nat.min_le_right _ _
    · exact ih (min init (f a)) x hx

lemma common_prefix_length_le_right :
    ∀ a b : List Nat, common_prefix_length a b ≤ b.length := by
  intro a
  induction a with
  | nil => intro b; cases b <;> simp [common_prefix_length]
  | cons x as ih =>
    intro b
    cases b with
    | nil => simp [common_prefix_length]
    | cons y bs =>
      by_cases h : x = y
      · simp only [common_prefix_length, if_pos h, List.length_cons]
        exact Nat.succ_le_succ (ih bs)
      · simp [common_prefix_length, h]

lemma shared_len_le (substring : List Nat) (obj : List (List Nat × List Nat))
    (level : Nat) (kv : List Nat × List Nat) (hkv : kv ∈ obj) :
    shared_len substring obj level ≤ kv.1.length - level := by
  calc shared_len substring obj level
      ≤ common_prefix_length substring (kv.1.drop level) :=
        foldl_min_le_mem _ obj _ kv hkv
    _ ≤ (kv.1.drop level).length := common_prefix_length_le_right _ _
    _ = kv.1.length - level := List.length_drop _ _

/-- The termination measure for patricialize: total remaining suffix lengths
(plus one per entry) plus the number of entries. -/
def pat_measure (obj : List (List Nat × List Nat)) (level : Nat) : Nat :=
  (obj.map (fun kv => kv.1.length + 1 - level)).sum + obj.length

lemma pat_measure_ext (obj : List (List Nat × List Nat)) (level s : Nat)
    (hobj : obj ≠ []) (hs : 0 < s)
    (hle : ∀ kv ∈ obj, s ≤ kv.1.length - level) :
    pat_measure obj (level + s) < pat_measure obj level := by
  have hpt : ∀ kv ∈ obj, kv.1.length + 1 - (level + s) < kv.1.length + 1 - level := by
    intro kv hkv
    have := hle kv hkv
    omega
  have := List.sum_lt_sum_of_ne_nil hobj
    (fun kv => kv.1.length + 1 - (level + s)) (fun kv => kv.1.length + 1 - level) hpt
  unfold pat_measure
  omega

lemma pat_measure_bucket (obj : List (List Nat × List Nat)) (level i : Nat)
    (hobj : obj ≠ []) :
    pat_measure (bucket obj level i) (level + 1) < pat_measure obj level := by
  have hmem : ∀ kv ∈ bucket obj level i, level < kv.1.length := by
    intro kv hkv
    have h := List.mem_filter.mp hkv
    exact (of_decide_eq_true h.2).1
  have hmap :
      ((bucket obj level i).map (fun kv => kv.1.length + 1 - (level + 1) + 1)) =
      ((bucket obj level i).map (fun kv => kv.1.length + 1 - level)) := by
    apply List.map_congr_left
    intro kv hkv
    have := hmem kv hkv
    omega
  have hsum :
      ((bucket obj level i).map (fun kv => kv.1.length + 1 - (level + 1))).sum +
        (bucket obj level i).length ≤
      ((bucket obj level i).map (fun kv => kv.1.length + 1 - level)).sum := by
    rw [← hmap]
    rw [List.sum_map_add]
    simp
  have hsub : ((bucket obj level i).map (fun kv => kv.1.length + 1 - level)).sum ≤
      (obj.map (fun kv => kv.1.length + 1 - level)).sum := by
    apply List.Sublist.sum_le_sum
    · exact (List.filter_sublist obj).map _
    · intro a _; exact Nat.zero_le a
  have hlen : 0 < obj.length := List.length_pos.mpr hobj
  unfold pat_measure
  omega

/-- patricialize from trie.rs: structural compression of a nibble-keyed map
(an association list in ascending key order) from the given level.  An empty
map is the absent node; a single entry is a leaf carrying the key suffix; a
non-trivial shared prefix of all key suffixes becomes an extension node over
the recursion past that prefix; otherwise the entries are split into sixteen
buckets by the nibble at the current level (an entry whose key ends exactly
at the level supplies the inline value, initialised to the encoding of the
empty string) and each bucket is recursed into at the next level. -/
def patricialize (keccak : List Nat → List Nat)
    (obj : List (List Nat × List Nat)) (level : Nat) : InternalNode :=
  match obj with
  | [] => InternalNode.None
  | (arbitrary_key, value) :: rest =>
    if rest.isEmpty then
      InternalNode.LeafNode (arbitrary_key.drop level) value
    else
      if h : 0 < shared_len (arbitrary_key.drop level)
          ((arbitrary_key, value) :: rest) level then
        InternalNode.ExtensionNode
          ((arbitrary_key.drop level).take
            (shared_len (arbitrary_key.drop level) ((arbitrary_key, value) :: rest) level))
          (encode_internal_node keccak
            (patricialize keccak ((arbitrary_key, value) :: rest)
              (level + shared_len (arbitrary_key.drop level)
                ((arbitrary_key, value) :: rest) level)) true)
      else
        InternalNode.BranchNode
          ((List.range 16).map (fun i =>
            encode_internal_node keccak
              (patricialize keccak (bucket ((arbitrary_key, value) :: rest) level i)
                (level + 1)) true))
          (((arbitrary_key, value) :: rest).foldl
            (fun acc kv => if kv.1.length = level then kv.2 else acc) [0x80])
  termination_by pat_measure obj level
  decreasing_by
  · apply pat_measure_ext _ _ _ (by simp) h
    intro kv hkv
    exact shared_len_le _ _ _ kv hkv
  · exact pat_measure_bucket _ _ _ (by simp)

/-- Lexicographic order on byte strings, the derived Ord of the Rust Bytes
newtype over Vec of u8 (used as the BTreeMap key order). -/
def listLt : List Nat → List Nat → Bool
  | _, [] => false
  | [], _ :: _ => true
  | a :: as, b :: bs => if a < b then true else if a = b then listLt as bs else false

/-- BTreeMap insertion on the sorted association list model: place the new
pair before the first strictly larger key, replacing an equal key. -/
def alist_insert (k v : List Nat) :
    List (List Nat × List Nat) → List (List Nat × List Nat)
  | [] => [(k, v)]
  | kv :: rest =>
    if listLt k kv.1 then (k, v) :: kv :: rest
    else if kv.1 = k then (k, v) :: rest
    else kv :: alist_insert k v rest

/-- BTreeMap removal on the association list model. -/
def alist_remove (k : List Nat) (l : List (List Nat × List Nat)) :
    List (List Nat × List Nat) :=
  l.filter (fun kv => decide (kv.1 ≠ k))

/-- BTreeMap lookup on the association list model. -/
def alist_lookup (k : List Nat) : List (List Nat × List Nat) → Option (List Nat)
  | [] => none
  | kv :: rest => if kv.1 = k then some kv.2 else alist_lookup k rest

/-- The Trie from trie.rs, instantiated at the Bytes key and Bytes value
types used by the trie tests: the secured flag, the default value and the
backing BTreeMap. -/
structure Trie where
  secured : Bool
  default_value : List Nat
  data : List (List Nat × List Nat)
  deriving Repr

/-- Trie::set: remove the key when the value equals the default, store it
otherwise. -/
def Trie.set (t : Trie) (k v : List Nat) : Trie :=
  if v = t.default_value then { t with data := alist_remove k t.data }
  else { t with data := alist_insert k v t.data }

/-- Trie::get: the stored value, or a copy of the default when absent. -/
def Trie.get (t : Trie) (k : List Nat) : List Nat :=
  (alist_lookup k t.data).getD t.default_value

/-- prepare_trie from trie.rs at Bytes keys and values: the key bytes (hashed
when secured) converted to nibbles, the value RLP-encoded, collected into a
fresh BTreeMap keyed by nibble list. -/
def prepare_trie (keccak : List Nat → List Nat) (t : Trie) :
    List (List Nat × List Nat) :=
  t.data.foldl (fun mapped kv =>
    alist_insert (bytes_to_nibble_list (if t.secured then keccak kv.1 else kv.1))
      (encode_bytes [] kv.2) mapped) []

/-- Trie::root from trie.rs: patricialize the prepared map, encode the top
node with the bare-hash option, re-encode those bytes as an RLP byte string,
and hash that re-encoding when it is shorter than 32 bytes (otherwise return
the node bytes, which are already a 32-byte hash).  The inner RLP encode of a
byte string cannot fail, so the source's error propagation never fires. -/
def Trie.root (keccak : List Nat → List Nat) (t : Trie) :
    Except RLPException (List Nat) :=
  let root_node :=
    encode_internal_node keccak (patricialize keccak (prepare_trie keccak t) 0) false
  let encoded := encode_bytes [] root_node
  if encoded.length < 32 then .ok (keccak encoded)
  else .ok root_node

/-- The payload size a decode_to_bytes call will demand of its destination,
as a function of the input alone: the checks of decode_to_bytes that precede
its DestTooSmall tests, followed by the parsed payload length (one for the
single-byte forms, the short-form length, or the long-form decoded length). -/
def required_dest_len (buffer : List Nat) : Option Nat :=
  match buffer with
  | [] => none
  | b0 :: rest =>
    if b0 > 0xBF then none
    else if b0 ≤ 0x80 then some 1
    else if b0 ≤ 0xB7 then
      let len_raw_data := b0 - 0x80
      if len_raw_data ≥ (b0 :: rest).length then none
      else some len_raw_data
    else
      let decoded_data_start_idx := 1 + b0 - 0xB7
      if decoded_data_start_idx - 1 ≥ (b0 :: rest).length then none
      else if rest.headD 0 = 0 then none
      else
        let len_decoded_data := from_be_bytes (rest.take (decoded_data_start_idx - 1))
        if len_decoded_data < 0x38 then none
        else
          let decoded_data_end_idx := decoded_data_start_idx + len_decoded_data
          if decoded_data_end_idx - 1 ≥ (b0 :: rest).length then none
          else some len_decoded_data

/-- The nibble suffixes of every key in the map agree with the first key's
suffix on their first q positions (and are at least q long): q is a shared
prefix length of all keys starting at the given level. -/
abbrev shared_at (obj : List (List Nat × List Nat)) (level q : Nat) : Prop :=
  ∀ kv ∈ obj, q ≤ (kv.1.drop level).length ∧
    (kv.1.drop level).take q = ((obj.headD ([], [])).1.drop level).take q

/-- The trie invariant of the claim: no stored value equals the default. -/
abbrev trie_inv (t : Trie) : Prop := ∀ kv ∈ t.data, kv.2 ≠ t.default_value

/-!  Claim theorems. -/

/-- Claim C1 (code evaluation at the failing input).  The bare-hash encoding
of the empty trie's top node is the byte string 0x80, so by the claim the
root should be keccak256 of 0x80 (the constant 0x56e8...b421 declared as
EMPTY_TRIE_ROOT in trie.rs).  The code instead re-encodes the node bytes as
an RLP byte string before both the length test and the hash, and returns
keccak256 of the two bytes 0x81 0x80, for either value of the secured flag
and any default value. -/
theorem C1_empty_trie_root_hashes_rewrapped (keccak : List Nat → List Nat)
    (s : Bool) (d : List Nat) :
    encode_internal_node keccak
        (patricialize keccak
          (prepare_trie keccak { secured := s, default_value := d, data := [] }) 0) false
      = [0x80]
    ∧ Trie.root keccak { secured := s, default_value := d, data := [] } =
        .ok (keccak [0x81, 0x80]) := by
  constructor
  · simp [prepare_trie, patricialize, encode_internal_node]
  · simp [Trie.root, prepare_trie, patricialize, encode_internal_node, encode_bytes]

/-- Claim C2 (code evaluation at the failing input).  Encoding the Uint value
zero produces the canonical empty-string encoding 0x80, but decoding that
buffer back through the whole-buffer entry point returns 128 instead of
zero: decode_to_bytes treats every leading byte up to and including 0x80 as
a literal single byte, so the round-trip of the claim fails at zero. -/
theorem C2_uint_roundtrip_fails_at_zero :
    uint_encode [] 0 = [0x80]
    ∧ decode_to uint_decode (uint_encode [] 0) = .ok 128
    ∧ (128 : Nat) ≠ 0 := by
  refine ⟨by decide, by rfl, by decide⟩

/-- Claim C5 (counterexample).  The claim asserts that decoding the two-byte
input 0x81 b fails for every byte b at or above 0x80; at b equal to 0x80 the
Bytes decoder succeeds and returns that single byte, and so does
decode_to_bytes with a one-byte destination. -/
theorem C5_counterexample_wrapped_high_byte_accepted :
    bytes_decode [0x81, 0x80] = .ok ([0x80], [])
    ∧ decode_to_bytes [0x81, 0x80] 1 = .ok ([0x80], []) := by
  exact ⟨rfl, rfl⟩

/-- Claim C5 (amended).  A single byte below 0x80 wrapped in a one-byte
length prefix is the non-canonical form and is rejected with a decoding
error; for a byte at or above 0x80 the two-byte form is the canonical
encoding and decodes back to that byte. -/
theorem C5_wrapped_single_byte (b : Nat) :
    (b < 0x80 → bytes_decode [0x81, b] = .error (.DecodingError "incorrect length"))
    ∧ (0x80 ≤ b → b ≤ 0xFF → bytes_decode [0x81, b] = .ok ([b], [])) := by
  constructor
  · intro h
    simp [bytes_decode, decode_to_bytes, h]
  · intro h _
    have h2 : ¬ b < 0x80 := by omega
    simp [bytes_decode, decode_to_bytes, h2]

/-- Witness for C5_wrapped_single_byte at bytes 0x05 and 0x90. -/
theorem C5_wrapped_single_byte_witness :
    bytes_decode [0x81, 0x05] = .error (.DecodingError "incorrect length")
    ∧ bytes_decode [0x81, 0x90] = .ok ([0x90], []) :=
  ⟨(C5_wrapped_single_byte 0x05).1 (by decide),
   (C5_wrapped_single_byte 0x90).2 (by decide) (by decide)⟩

/-- Claim C10.  The whole-buffer entry point decode_to rejects empty input,
succeeds exactly when the inner decoder consumes the entire buffer, and
fails with a decoding error when unconsumed bytes remain. -/
theorem C10_decode_to_whole_buffer {α : Type}
    (dec : List Nat → Except RLPException (α × List Nat))
    (encoded_data : List Nat) (res : α) :
    decode_to dec [] = .error (.DecodingError "Cannot decode empty bytestring")
    ∧ (decode_to dec encoded_data = .ok res ↔
        encoded_data ≠ [] ∧ dec encoded_data = .ok (res, []))
    ∧ (∀ w rest, dec encoded_data = .ok (w, rest) → rest ≠ [] →
        ∃ msg, decode_to dec encoded_data = .error (.DecodingError msg)) := by
  refine ⟨rfl, ?_, ?_⟩
  · rcases encoded_data with _ | ⟨b, tl⟩
    · simp [decode_to]
    · rcases hdec : dec (b :: tl) with e | ⟨w, rest⟩
      · simp [decode_to, hdec]
      · rcases rest with _ | ⟨r, rs⟩
        · simp [decode_to, hdec]
        · simp [decode_to, hdec]
  · intro w rest hdec hrest
    rcases encoded_data with _ | ⟨b, tl⟩
    · exact ⟨"Cannot decode empty bytestring", rfl⟩
    · refine ⟨"too short", ?_⟩
      have hne : rest.isEmpty = false := by
        cases rest
        · exact absurd rfl hrest
        · rfl
      simp [decode_to, hdec, hne]

/-- Witness for C10_decode_to_whole_buffer with the Uint decoder: the single
byte 0x0f decodes to 15 consuming everything, and a trailing byte after it is
rejected. -/
theorem C10_decode_to_whole_buffer_witness :
    decode_to uint_decode [0x0f] = .ok 15
    ∧ ∃ msg, decode_to uint_decode [0x0f, 0x00] = .error (.DecodingError msg) :=
  ⟨(C10_decode_to_whole_buffer uint_decode [0x0f] 15).2.1.mpr ⟨by decide, by rfl⟩,
   (C10_decode_to_whole_buffer uint_decode [0x0f, 0x00] 15).2.2 15 [0x00] (by rfl)
     (by decide)⟩

lemma from_be_bytes_append_one (l : List Nat) (x : Nat) :
    from_be_bytes (l ++ [x]) = from_be_bytes l * 256 + x := by
  unfold from_be_bytes
  rw [List.foldl_append]
  rfl

lemma from_be_bytes_strip_lz (l : List Nat) :
    from_be_bytes (strip_lz l) = from_be_bytes l := by
  induction l with
  | nil => rfl
  | cons b rest ih =>
    by_cases h : b = 0
    · subst h
      have h1 : strip_lz (0 :: rest) = strip_lz rest := by
        simp [strip_lz, List.dropWhile]
      have h2 : from_be_bytes (0 :: rest) = from_be_bytes rest := by
        unfold from_be_bytes
        simp
      rw [h1, h2, ih]
    · simp [strip_lz, List.dropWhile, h]

lemma from_be_bytes_to_be_bytes (w n : Nat) :
    from_be_bytes (to_be_bytes w n) = n % 256 ^ w := by
  induction w generalizing n with
  | zero => simp [to_be_bytes, from_be_bytes, Nat.mod_one]
  | succ w ih =>
    show from_be_bytes (to_be_bytes w (n / 256) ++ [n % 256]) = n % 256 ^ (w + 1)
    rw [from_be_bytes_append_one, ih]
    have hpow : (256 : Nat) ^ (w + 1) = 256 * 256 ^ w := by ring
    rw [hpow]
    have h1 : n % (256 * 256 ^ w) / 256 = n / 256 % 256 ^ w :=
      Nat.mod_mul_right_div_self n 256 (256 ^ w)
    have h2 : n % (256 * 256 ^ w) % 256 = n % 256 :=
      Nat.mod_mod_of_dvd n ⟨256 ^ w, rfl⟩
    have h3 := Nat.div_add_mod (n % (256 * 256 ^ w)) 256
    omega

lemma strip_lz_headD_ne_zero (l : List Nat) (h : strip_lz l ≠ []) :
    (strip_lz l).headD 0 ≠ 0 := by
  induction l with
  | nil => exact absurd rfl h
  | cons b rest ih =>
    by_cases hb : b = 0
    · subst hb
      have h1 : strip_lz (0 :: rest) = strip_lz rest := by
        simp [strip_lz, List.dropWhile]
      rw [h1] at h ⊢
      exact ih h
    · simp [strip_lz, List.dropWhile, hb]

/-- Claim C3 (counterexample).  The claim asserts that the encoding of a
57-byte string begins with the bytes 0xb8 0x38, but 0x38 is 56: the encoding
of the 57-byte all-zero string begins with 0xb8 0x39. -/
theorem C3_counterexample_57_byte_vector :
    (encode_bytes [] (List.replicate 57 0)).take 2 = [0xb8, 0x39]
    ∧ (encode_bytes [] (List.replicate 57 0)).take 2 ≠ [0xb8, 0x38] := by
  decide

/-- Claim C3 (amended: the final concrete vector concerns a 56-byte string,
matching the Lorem-ipsum test vector of rlp.rs, not a 57-byte one).  A
single byte below 0x80 encodes as itself; a string shorter than 56 bytes
(other than such a single byte) gets the one-byte prefix 0x80 plus length; a
longer string gets the prefix 0xB7 plus the byte count of the big-endian
length, then the big-endian length without leading zero byte, then the raw
bytes; and the concrete vectors hold, with any 56-byte string's encoding
beginning 0xb8 0x38. -/
theorem C3_encode_bytes_forms (buffer raw_bytes : List Nat) (b : Nat) :
    (b < 0x80 → encode_bytes buffer [b] = buffer ++ [b])
    ∧ (raw_bytes.length < 56 → ¬(raw_bytes.length = 1 ∧ raw_bytes.headD 0 < 0x80) →
        encode_bytes buffer raw_bytes = buffer ++ [0x80 + raw_bytes.length] ++ raw_bytes)
    ∧ (56 ≤ raw_bytes.length → raw_bytes.length < 256 ^ 8 →
        encode_bytes buffer raw_bytes =
          buffer ++ [0xB7 + (strip_lz (to_be_bytes 8 raw_bytes.length)).length]
            ++ strip_lz (to_be_bytes 8 raw_bytes.length) ++ raw_bytes
        ∧ (strip_lz (to_be_bytes 8 raw_bytes.length)).headD 0 ≠ 0
        ∧ from_be_bytes (strip_lz (to_be_bytes 8 raw_bytes.length)) = raw_bytes.length)
    ∧ encode_bytes [] [0x64, 0x6f, 0x67] = [0x83, 0x64, 0x6f, 0x67]
    ∧ encode_joined_encodings [] [] = [0xC0]
    ∧ uint_encode [] 0 = [0x80]
    ∧ uint_encode [] 15 = [0x0f]
    ∧ uint_encode [] 1024 = [0x82, 0x04, 0x00]
    ∧ (raw_bytes.length = 56 → (encode_bytes [] raw_bytes).take 2 = [0xb8, 0x38]) := by
  refine ⟨?_, ?_, ?_, by decide, by decide, by decide, by decide, by decide, ?_⟩
  · intro hb
    simp [encode_bytes, hb]
  · intro hlen hns
    simp [encode_bytes, hns, hlen]
    intro h1 h2
    exact absurd ⟨h1, by cases raw_bytes <;> simp_all⟩ hns
  · intro hlen hbound
    have hval : from_be_bytes (strip_lz (to_be_bytes 8 raw_bytes.length)) =
        raw_bytes.length := by
      rw [from_be_bytes_strip_lz, from_be_bytes_to_be_bytes,
        Nat.mod_eq_of_lt hbound]
    have hne : strip_lz (to_be_bytes 8 raw_bytes.length) ≠ [] := by
      intro hnil
      rw [hnil] at hval
      simp [from_be_bytes] at hval
      omega
    have hns : ¬(raw_bytes.length = 1 ∧ raw_bytes.headD 0 < 0x80) := by
      intro hcon
      omega
    have hlt : ¬ raw_bytes.length < 0x38 := by omega
    refine ⟨?_, strip_lz_headD_ne_zero _ hne, hval⟩
    simp [encode_bytes, hns, hlt]
    intro h1 h2
    exact absurd ⟨h1, by cases raw_bytes <;> simp_all⟩ hns
  · intro h56
    have hns : ¬(raw_bytes.length = 1 ∧ raw_bytes.headD 0 < 0x80) := by
      intro hcon
      omega
    have hlt : ¬ raw_bytes.length < 0x38 := by omega
    have hstrip : strip_lz (to_be_bytes 8 raw_bytes.length) = [56] := by
      rw [h56]
      decide
    simp [encode_bytes, hns, hlt, hstrip]
    rw [if_neg (by intro hcon; omega)]
    simp

/-- Witness for C3_encode_bytes_forms: the single byte 0x05, the two-byte
string 0x01 0x02, a 60-byte string in the long form, and a 56-byte string
beginning 0xb8 0x38. -/
theorem C3_encode_bytes_forms_witness :
    encode_bytes [] [0x05] = [0x05]
    ∧ encode_bytes [] [0x01, 0x02] = [0x82, 0x01, 0x02]
    ∧ encode_bytes [] (List.replicate 60 7) =
        [0xb8, 0x3c] ++ List.replicate 60 7
    ∧ (encode_bytes [] (List.replicate 56 9)).take 2 = [0xb8, 0x38] := by
  refine ⟨(C3_encode_bytes_forms [] [] 0x05).1 (by decide),
    (C3_encode_bytes_forms [] [0x01, 0x02] 0).2.1 (by decide) (by decide),
    ?_, (C3_encode_bytes_forms [] (List.replicate 56 9) 0).2.2.2.2.2.2.2.2
      (by decide)⟩
  have h := ((C3_encode_bytes_forms [] (List.replicate 60 7) 0).2.2.1
    (by decide) (by decide)).1
  rw [h]
  decide

lemma headD_append_of_ne_nil (l m : List Nat) (h : l ≠ []) :
    (l ++ m).headD 0 = l.headD 0 := by
  cases l with
  | nil => exact absurd rfl h
  | cons a as => rfl

/-- Claim C6.  Byte-string decoding rejects every non-minimal encoding with
the decoding error used for incorrect lengths: a single byte below 0x80
wrapped in a one-byte length prefix (both through decode_to_bytes with room
for the payload and through the dynamic Bytes decoder), a long-form prefix
0xB8 to 0xBF whose length field starts with a zero byte, and a long form
whose decoded length is below 56 and would have fit the short form. -/
theorem C6_nonminimal_rejection (b k dest_len : Nat) (lenbytes rest : List Nat) :
    (b < 0x80 → 1 ≤ dest_len →
      decode_to_bytes [0x81, b] dest_len = .error (.DecodingError "incorrect length"))
    ∧ (b < 0x80 →
      bytes_decode [0x81, b] = .error (.DecodingError "incorrect length"))
    ∧ (1 ≤ k → k ≤ 8 → k ≤ rest.length + 1 →
      decode_to_bytes ((0xB7 + k) :: 0 :: rest) dest_len =
        .error (.DecodingError "incorrect length"))
    ∧ (1 ≤ k → k ≤ 8 → lenbytes.length = k → lenbytes.headD 0 ≠ 0 →
      from_be_bytes lenbytes < 0x38 →
      decode_to_bytes ((0xB7 + k) :: (lenbytes ++ rest)) dest_len =
        .error (.DecodingError "incorrect length")) := by
  refine ⟨?_, ?_, ?_, ?_⟩
  · intro hb hd
    have hd2 : ¬ dest_len < 1 := by omega
    simp [decode_to_bytes, hb, hd2]
  · intro hb
    simp [bytes_decode, decode_to_bytes, hb]
  · intro hk1 hk8 hkr
    have hb1 : ¬ 0xB7 + k > 0xBF := by omega
    have hb2 : ¬ 0xB7 + k ≤ 0x80 := by omega
    have hb3 : ¬ 0xB7 + k ≤ 0xB7 := by omega
    have htr : ¬ 1 + (0xB7 + k) - 0xB7 - 1 ≥ (List.length ((0xB7 + k) :: 0 :: rest)) := by
      simp
      omega
    simp [decode_to_bytes, hb1, hb2, hb3, htr]
    omega
  · intro hk1 hk8 hlen hhd hval
    have hb1 : ¬ 0xB7 + k > 0xBF := by omega
    have hb2 : ¬ 0xB7 + k ≤ 0x80 := by omega
    have hb3 : ¬ 0xB7 + k ≤ 0xB7 := by omega
    have hlb : lenbytes ≠ [] := by
      intro hnil
      rw [hnil] at hlen
      simp at hlen
      omega
    have htr : ¬ 1 + (0xB7 + k) - 0xB7 - 1 ≥
        (List.length ((0xB7 + k) :: (lenbytes ++ rest))) := by
      simp [hlen]
      omega
    have hh : (lenbytes ++ rest).headD 0 ≠ 0 := by
      rw [headD_append_of_ne_nil _ _ hlb]
      exact hhd
    have htake : (lenbytes ++ rest).take (1 + (0xB7 + k) - 0xB7 - 1) = lenbytes := by
      have : 1 + (0xB7 + k) - 0xB7 - 1 = k := by omega
      rw [this, ← hlen, List.take_left]
    simp [decode_to_bytes, hb1, hb2, hb3, htr, hh, htake, hval]
    omega

/-- Witness for C6_nonminimal_rejection: the wrapped byte 0x05, a leading
zero length field, and a long form with length 16. -/
theorem C6_nonminimal_rejection_witness :
    decode_to_bytes [0x81, 0x05] 1 = .error (.DecodingError "incorrect length")
    ∧ bytes_decode [0x81, 0x05] = .error (.DecodingError "incorrect length")
    ∧ decode_to_bytes [0xB9, 0x00, 0x40] 0 = .error (.DecodingError "incorrect length")
    ∧ decode_to_bytes [0xB8, 0x10] 0 = .error (.DecodingError "incorrect length") := by
  refine ⟨(C6_nonminimal_rejection 0x05 0 1 [] []).1 (by decide) (by decide),
    (C6_nonminimal_rejection 0x05 0 0 [] []).2.1 (by decide),
    (C6_nonminimal_rejection 0 2 0 [] [0x40]).2.2.1 (by decide) (by decide) (by decide),
    (C6_nonminimal_rejection 0 1 0 [0x10] []).2.2.2 (by decide) (by decide) (by decide)
      (by decide) (by decide)⟩

lemma bytes_to_nibble_list_cons (b : Nat) (l : List Nat) :
    bytes_to_nibble_list (b :: l) =
      (b / 16 % 16) :: (b % 16) :: bytes_to_nibble_list l := rfl

lemma bytes_to_nibble_list_pack (y : List Nat) (hy : ∀ b ∈ y, b < 16)
    (heven : y.length % 2 = 0) :
    bytes_to_nibble_list (pack_nibble_pairs y) = y := by
  match y with
  | [] => rfl
  | [a] => simp at heven
  | a :: b :: rest =>
    have ha : a < 16 := hy a (by simp)
    have hb : b < 16 := hy b (by simp)
    have hmod : (16 * a + b) % 256 = 16 * a + b := by
      apply Nat.mod_eq_of_lt
      omega
    have hdiv : (16 * a + b) / 16 % 16 = a := by
      have : (16 * a + b) / 16 = a := by
        rw [Nat.mul_comm]
        rw [Nat.add_comm]
        rw [Nat.add_mul_div_right _ _ (by norm_num : (0:Nat) < 16)]
        omega
      rw [this]
      exact Nat.mod_eq_of_lt ha
    have hmod2 : (16 * a + b) % 16 = b := by
      omega
    have ih := bytes_to_nibble_list_pack rest
      (fun x hx => hy x (by simp [hx]))
      (by simp only [List.length_cons] at heven; omega)
    show bytes_to_nibble_list (((16 * a + b) % 256) :: pack_nibble_pairs rest) = _
    rw [bytes_to_nibble_list_cons, hmod, hdiv, hmod2, ih]

/-- Claim C9.  For a nibble list x, the compact encoding's first byte carries
the flag nibble in its high half: its second-lowest high bit is set exactly
when is_leaf holds, its lowest high bit is set exactly when the length of x
is odd, and its low half holds the first nibble of x when the length is odd
and zero otherwise; unpacking the remaining bytes back to nibbles recovers
the remaining nibbles of x, two per byte with the high nibble first. -/
theorem C9_nibble_list_to_compact_layout (x : List Nat) (is_leaf : Bool)
    (h : ∀ b ∈ x, b < 16) :
    ((nibble_list_to_compact x is_leaf).headD 0) / 32 % 2 = (if is_leaf then 1 else 0)
    ∧ ((nibble_list_to_compact x is_leaf).headD 0) / 16 % 2 = x.length % 2
    ∧ ((nibble_list_to_compact x is_leaf).headD 0) % 16 =
        (if x.length % 2 = 1 then x.headD 0 else 0)
    ∧ bytes_to_nibble_list ((nibble_list_to_compact x is_leaf).drop 1) =
        (if x.length % 2 = 1 then x.drop 1 else x) := by
  by_cases hp : x.length % 2 = 0
  · have hp1 : ¬ x.length % 2 = 1 := by omega
    unfold nibble_list_to_compact
    rw [if_pos hp]
    simp only [List.headD, List.drop_one, List.tail_cons, if_neg hp1]
    refine ⟨?_, ?_, ?_, bytes_to_nibble_list_pack x h hp⟩
    · cases is_leaf <;> simp
    · cases is_leaf <;> simp [hp]
    · cases is_leaf <;> simp
  · have hp1 : x.length % 2 = 1 := by omega
    match x with
    | [] => simp at hp1
    | x0 :: xs =>
      have hx0 : x0 < 16 := h x0 (by simp)
      have hxs : (x0 :: xs).length % 2 = 1 := hp1
      have hxse : xs.length % 2 = 0 := by
        simp at hxs
        omega
      unfold nibble_list_to_compact
      rw [if_neg hp]
      have hval : (16 * (2 * (if is_leaf then 1 else 0) + 1) + (x0 :: xs).headD 0) % 256 =
          16 * (2 * (if is_leaf then 1 else 0) + 1) + x0 := by
        have : (x0 :: xs).headD 0 = x0 := rfl
        rw [this]
        apply Nat.mod_eq_of_lt
        cases is_leaf <;> simp <;> omega
      simp only [List.headD, List.drop_one, List.tail_cons, hval, if_pos hp1]
      refine ⟨?_, ?_, ?_, ?_⟩
      · cases is_leaf <;> simp <;> omega
      · cases is_leaf <;> simp [hp1] <;> omega
      · cases is_leaf <;> simp <;> omega
      · show bytes_to_nibble_list (pack_nibble_pairs ((x0 :: xs).drop 1)) = xs
        simp only [List.drop_one, List.tail_cons]
        exact bytes_to_nibble_list_pack xs (fun b hb => h b (by simp [hb])) hxse

/-- Witness for C9 at the nibble list 1 2 3 with the leaf flag set. -/
theorem C9_nibble_list_to_compact_layout_witness :
    ((nibble_list_to_compact [1, 2, 3] true).headD 0) / 32 % 2 = 1
    ∧ ((nibble_list_to_compact [1, 2, 3] true).headD 0) / 16 % 2 = 1
    ∧ ((nibble_list_to_compact [1, 2, 3] true).headD 0) % 16 = 1
    ∧ bytes_to_nibble_list ((nibble_list_to_compact [1, 2, 3] true).drop 1) = [2, 3] := by
  have h := C9_nibble_list_to_compact_layout [1, 2, 3] true (by decide)
  simpa using h

lemma alist_lookup_remove (k : List Nat) (l : List (List Nat × List Nat)) :
    alist_lookup k (alist_remove k l) = none := by
  induction l with
  | nil => rfl
  | cons kv rest ih =>
    by_cases h : kv.1 = k
    · simp [alist_remove, List.filter_cons, h] at ih ⊢
      simpa [alist_remove] using ih
    · simp [alist_remove, List.filter_cons, h] at ih ⊢
      simpa [alist_lookup, h, alist_remove] using ih

lemma alist_remove_of_lookup_none (k : List Nat) (l : List (List Nat × List Nat))
    (h : alist_lookup k l = none) : alist_remove k l = l := by
  induction l with
  | nil => rfl
  | cons kv rest ih =>
    by_cases hk : kv.1 = k
    · simp [alist_lookup, hk] at h
    · have hrest : alist_lookup k rest = none := by
        simpa [alist_lookup, hk] using h
      simp [alist_remove, List.filter_cons, hk] at ih ⊢
      exact ih hrest

lemma mem_alist_insert (k v : List Nat) (kv : List Nat × List Nat)
    (l : List (List Nat × List Nat)) (h : kv ∈ alist_insert k v l) :
    kv = (k, v) ∨ kv ∈ l := by
  induction l with
  | nil =>
    simp [alist_insert] at h
    exact Or.inl h
  | cons hd rest ih =>
    unfold alist_insert at h
    by_cases h1 : listLt k hd.1
    · rw [if_pos h1] at h
      rcases List.mem_cons.mp h with rfl | h2
      · exact Or.inl rfl
      · exact Or.inr h2
    · rw [if_neg h1] at h
      by_cases h2 : hd.1 = k
      · rw [if_pos h2] at h
        rcases List.mem_cons.mp h with rfl | h3
        · exact Or.inl rfl
        · exact Or.inr (List.mem_cons_of_mem _ h3)
      · rw [if_neg h2] at h
        rcases List.mem_cons.mp h with rfl | h3
        · exact Or.inr (List.mem_cons_self _ _)
        · rcases ih h3 with h4 | h4
          · exact Or.inl h4
          · exact Or.inr (List.mem_cons_of_mem _ h4)

lemma trie_inv_set (t : Trie) (k v : List Nat) (h : trie_inv t) :
    trie_inv (t.set k v) := by
  unfold Trie.set
  by_cases hv : v = t.default_value
  · rw [if_pos hv]
    intro kv hkv
    exact h kv (List.mem_of_mem_filter hkv)
  · rw [if_neg hv]
    intro kv hkv
    rcases mem_alist_insert k v kv t.data hkv with rfl | h2
    · exact hv
    · exact h kv h2

lemma trie_inv_foldl (ops : List (List Nat × List Nat)) (t : Trie)
    (h : trie_inv t) :
    trie_inv (ops.foldl (fun tr kv => tr.set kv.1 kv.2) t) := by
  induction ops generalizing t with
  | nil => exact h
  | cons op rest ih => exact ih (t.set op.1 op.2) (trie_inv_set t op.1 op.2 h)

/-- Claim C8.  Setting a key to the trie's default value removes it from the
backing map (lookup fails and the data is exactly the removal), get then
returns the default, the root is the root of the trie in which the key was
never set, and every sequence of set operations preserves the invariant that
no stored value equals the default. -/
theorem C8_default_omission (t : Trie) (k : List Nat)
    (keccak : List Nat → List Nat) :
    alist_lookup k (t.set k t.default_value).data = none
    ∧ (t.set k t.default_value).get k = t.default_value
    ∧ (t.set k t.default_value).data = alist_remove k t.data
    ∧ (alist_lookup k t.data = none →
        Trie.root keccak (t.set k t.default_value) = Trie.root keccak t)
    ∧ (∀ ops : List (List Nat × List Nat), trie_inv t →
        trie_inv (ops.foldl (fun tr kv => tr.set kv.1 kv.2) t)) := by
  have hdata : (t.set k t.default_value).data = alist_remove k t.data := by
    simp [Trie.set]
  refine ⟨?_, ?_, hdata, ?_, ?_⟩
  · rw [hdata]
    exact alist_lookup_remove k t.data
  · unfold Trie.get
    rw [show (t.set k t.default_value).default_value = t.default_value by
      simp [Trie.set]]
    rw [hdata, alist_lookup_remove]
    rfl
  · intro hnone
    have : t.set k t.default_value = t := by
      unfold Trie.set
      rw [if_pos rfl, alist_remove_of_lookup_none k t.data hnone]
    rw [this]
  · exact fun ops h => trie_inv_foldl ops t h

/-- Witness for C8_default_omission on a one-entry trie. -/
theorem C8_default_omission_witness :
    alist_lookup [5] ((Trie.mk false [] [([1], [2])]).set [5] []).data = none
    ∧ ((Trie.mk false [] [([1], [2])]).set [5] []).get [5] = []
    ∧ Trie.root (fun _ => List.replicate 32 0)
        ((Trie.mk false [] [([1], [2])]).set [5] []) =
      Trie.root (fun _ => List.replicate 32 0) (Trie.mk false [] [([1], [2])])
    ∧ trie_inv ([([1], [3]), ([2], [7])].foldl (fun tr kv => tr.set kv.1 kv.2)
        (Trie.mk false [] [([1], [2])])) := by
  have h := C8_default_omission (Trie.mk false [] [([1], [2])]) [5]
    (fun _ => List.replicate 32 0)
  exact ⟨h.1, h.2.1, h.2.2.2.1 (by decide), h.2.2.2.2 [([1], [3]), ([2], [7])]
    (by decide)⟩

set_option maxHeartbeats 2000000 in
lemma dest_too_small_iff (buffer : List Nat) (dest_len n : Nat) :
    decode_to_bytes buffer dest_len = .error (.DestTooSmall n) ↔
      required_dest_len buffer = some n ∧ dest_len < n := by
  cases buffer with
  | nil => simp [decode_to_bytes, required_dest_len]
  | cons b0 rest =>
    simp only [decode_to_bytes, required_dest_len]
    split_ifs <;> simp_all <;> omega

lemma decode_ok_shape (buffer : List Nat) (dest_len : Nat)
    (dest rest : List Nat)
    (h : decode_to_bytes buffer dest_len = .ok (dest, rest)) :
    dest.length = dest_len ∧
      ∃ raw, required_dest_len buffer = some raw.length ∧ raw.length ≤ dest_len ∧
        dest = List.replicate (dest_len - raw.length) 0 ++ raw := by
  cases buffer with
  | nil => simp [decode_to_bytes] at h
  | cons b0 tl =>
    simp only [decode_to_bytes] at h
    simp only [required_dest_len]
    split_ifs at h with h1 h2 h3 h4 h5 h6 h7 h8 h9 h10 h11 h12
    · injection h with h
      injection h with hdest hrest
      subst hdest
      rw [if_neg h1, if_pos h2]
      refine ⟨?_, [b0], by simp, by simp; omega, by simp⟩
      simp
      omega
    · injection h with h
      injection h with hdest hrest
      subst hdest
      rw [if_neg h1, if_neg h2, if_pos h4, if_neg h5]
      have hlen : (List.take (b0 - 128) tl).length = b0 - 128 := by
        rw [List.length_take]
        simp at h5
        omega
      refine ⟨?_, List.take (b0 - 128) tl, by rw [hlen], by omega, by rw [hlen]⟩
      simp [hlen]
      omega
    · injection h with h
      injection h with hdest hrest
      subst hdest
      rw [if_neg h1, if_neg h2, if_neg h4, if_neg h8, if_neg h9, if_neg h10,
        if_neg h11]
      have hlen : (List.take (from_be_bytes (List.take (1 + b0 - 183 - 1) tl))
          (List.drop (1 + b0 - 183 - 1) tl)).length =
          from_be_bytes (List.take (1 + b0 - 183 - 1) tl) := by
        rw [List.length_take, List.length_drop]
        simp at h8 h11
        omega
      refine ⟨?_, _, by rw [hlen], by omega, by rw [hlen]⟩
      simp [hlen]
      omega

lemma bytes_decode_no_dest_too_small (buffer : List Nat) (m : Nat) :
    bytes_decode buffer ≠ .error (.DestTooSmall m) := by
  intro hcon
  unfold bytes_decode at hcon
  cases hdec : decode_to_bytes buffer 0 with
  | ok p =>
    rw [hdec] at hcon
    simp at hcon
  | error e =>
    cases e with
    | DecodingError s =>
      rw [hdec] at hcon
      simp at hcon
    | EncodingError s =>
      rw [hdec] at hcon
      simp at hcon
    | DestTooSmall k =>
      rw [hdec] at hcon
      have h1 := (dest_too_small_iff buffer 0 k).mp hdec
      have h2 := (dest_too_small_iff buffer k m).mp hcon
      rw [h1.1] at h2
      have := h2.1
      simp at this
      omega

/-- Claim C7.  decode_to_bytes fails with DestTooSmall carrying exactly the
payload size the input demands, precisely when that size exceeds the
destination length; on success the destination holds the payload
right-justified with zero fill in the high-order bytes; and the dynamic
Bytes decoder, which retries after resizing to the reported size, never
surfaces DestTooSmall to its caller. -/
theorem C7_dest_too_small_contract (buffer : List Nat) (dest_len n : Nat) :
    (decode_to_bytes buffer dest_len = .error (.DestTooSmall n) ↔
      required_dest_len buffer = some n ∧ dest_len < n)
    ∧ (∀ dest rest, decode_to_bytes buffer dest_len = .ok (dest, rest) →
        dest.length = dest_len ∧
          ∃ raw, required_dest_len buffer = some raw.length ∧ raw.length ≤ dest_len ∧
            dest = List.replicate (dest_len - raw.length) 0 ++ raw)
    ∧ (∀ m, bytes_decode buffer ≠ .error (.DestTooSmall m)) :=
  ⟨dest_too_small_iff buffer dest_len n,
   fun dest rest h => decode_ok_shape buffer dest_len dest rest h,
   fun m => bytes_decode_no_dest_too_small buffer m⟩

/-- Witness for C7: a three-byte payload against a one-byte destination
fails with DestTooSmall 3, succeeds right-justified into five bytes, and the
Bytes decoder recovers. -/
theorem C7_dest_too_small_contract_witness :
    decode_to_bytes [0x83, 1, 2, 3] 1 = .error (.DestTooSmall 3)
    ∧ (decode_to_bytes [0x83, 1, 2, 3] 5 = .ok ([0, 0, 1, 2, 3], []) →
        ([0, 0, 1, 2, 3] : List Nat).length = 5)
    ∧ bytes_decode [0x83, 1, 2, 3] ≠ .error (.DestTooSmall 3) := by
  refine ⟨(C7_dest_too_small_contract [0x83, 1, 2, 3] 1 3).1.mpr ⟨by decide, by decide⟩,
    fun h => ((C7_dest_too_small_contract [0x83, 1, 2, 3] 5 3).2.1 _ _ h).1,
    (C7_dest_too_small_contract [0x83, 1, 2, 3] 0 0).2.2 3⟩

lemma le_common_prefix_length_iff (p : Nat) :
    ∀ (a b : List Nat), p ≤ common_prefix_length a b ↔
      p ≤ a.length ∧ p ≤ b.length ∧ a.take p = b.take p := by
  induction p with
  | zero => intro a b; simp
  | succ p ih =>
    intro a b
    cases a with
    | nil => simp [common_prefix_length]
    | cons x as =>
      cases b with
      | nil => simp [common_prefix_length]
      | cons y bs =>
        by_cases hxy : x = y
        · subst hxy
          have hcpl : common_prefix_length (x :: as) (x :: bs) =
              common_prefix_length as bs + 1 := by
            simp [common_prefix_length]
          rw [hcpl]
          simp only [List.length_cons, List.take_succ_cons]
          constructor
          · intro hle
            obtain ⟨ha, hb, ht⟩ := (ih as bs).mp (by omega)
            exact ⟨by omega, by omega, by rw [ht]⟩
          · rintro ⟨ha, hb, ht⟩
            have ht2 : as.take p = bs.take p := by
              injection ht
            have := (ih as bs).mpr ⟨by omega, by omega, ht2⟩
            omega
        · simp only [common_prefix_length, if_neg hxy, List.take_succ_cons]
          constructor
          · intro hle; omega
          · rintro ⟨ha, hb, ht⟩
            injection ht with hx _
            exact absurd hx hxy

lemma le_foldl_min {α : Type} (f : α → Nat) (p : Nat) :
    ∀ (l : List α) (init : Nat), p ≤ init → (∀ x ∈ l, p ≤ f x) →
      p ≤ l.foldl (fun q e => min q (f e)) init := by
  intro l
  induction l with
  | nil => intro init h _; exact h
  | cons a rest ih =>
    intro init hinit hall
    exact ih (min init (f a)) (le_min hinit (hall a (by simp)))
      (fun x hx => hall x (by simp [hx]))

lemma shared_len_eq (hd : List Nat × List Nat) (tl : List (List Nat × List Nat))
    (level p : Nat)
    (hs : shared_at (hd :: tl) level p)
    (hns : ¬ shared_at (hd :: tl) level (p + 1)) :
    shared_len (hd.1.drop level) (hd :: tl) level = p := by
  have hhead : ((hd :: tl).headD ([], [])) = hd := rfl
  have hsub : p ≤ (hd.1.drop level).length := (hs hd (by simp)).1
  have hge : p ≤ shared_len (hd.1.drop level) (hd :: tl) level := by
    apply le_foldl_min
    · exact hsub
    · intro kv hkv
      obtain ⟨hlen, htake⟩ := hs kv hkv
      rw [hhead] at htake
      exact (le_common_prefix_length_iff p (hd.1.drop level) (kv.1.drop level)).mpr
        ⟨hsub, hlen, htake.symm⟩
  have hex : ∃ kv ∈ hd :: tl,
      common_prefix_length (hd.1.drop level) (kv.1.drop level) ≤ p := by
    by_contra hno
    push_neg at hno
    apply hns
    intro kv hkv
    have hgt := hno kv hkv
    obtain ⟨ha, hb, ht⟩ :=
      (le_common_prefix_length_iff (p + 1) (hd.1.drop level) (kv.1.drop level)).mp
        (by omega)
    exact ⟨hb, by rw [hhead]; exact ht.symm⟩
  obtain ⟨kv, hkv, hle⟩ := hex
  have hub : shared_len (hd.1.drop level) (hd :: tl) level ≤
      common_prefix_length (hd.1.drop level) (kv.1.drop level) := by
    unfold shared_len
    exact foldl_min_le_mem _ (hd :: tl) _ kv hkv
  omega

lemma mem_bucket_iff (obj : List (List Nat × List Nat)) (level i : Nat)
    (kv : List Nat × List Nat) :
    kv ∈ bucket obj level i ↔
      kv ∈ obj ∧ kv.1.length ≠ level ∧ kv.1.get? level = some i := by
  unfold bucket
  rw [List.mem_filter]
  constructor
  · rintro ⟨hmem, hcond⟩
    have hc := of_decide_eq_true hcond
    have hlt : level < kv.1.length := hc.1
    refine ⟨hmem, by omega, ?_⟩
    rw [List.get?_eq_get hlt, List.get_eq_getElem]
    rw [← List.getD_eq_getElem kv.1 0 hlt]
    rw [hc.2]
  · rintro ⟨hmem, hne, hget⟩
    have hlt : level < kv.1.length := by
      rcases Nat.lt_or_ge level kv.1.length with h | h
      · exact h
      · rw [List.get?_eq_none.mpr h] at hget
        cases hget
    refine ⟨hmem, decide_eq_true ?_⟩
    refine ⟨hlt, ?_⟩
    rw [List.get?_eq_get hlt, List.get_eq_getElem] at hget
    injection hget with hget
    rw [← List.getD_eq_getElem kv.1 0 hlt] at hget
    exact hget

lemma foldl_value_no_match (obj : List (List Nat × List Nat)) (level : Nat) :
    ∀ init, (∀ kv ∈ obj, kv.1.length ≠ level) →
      obj.foldl (fun acc kv => if kv.1.length = level then kv.2 else acc) init =
        init := by
  induction obj with
  | nil => intro init _; rfl
  | cons hd tlist ih =>
    intro init hall
    rw [List.foldl_cons, if_neg (hall hd (by simp))]
    exact ih init (fun kv hkv => hall kv (by simp [hkv]))

lemma foldl_value_unique (obj : List (List Nat × List Nat)) (level : Nat)
    (w : List Nat) :
    ∀ init, (∃ kv ∈ obj, kv.1.length = level) →
      (∀ kv ∈ obj, kv.1.length = level → kv.2 = w) →
      obj.foldl (fun acc kv => if kv.1.length = level then kv.2 else acc) init =
        w := by
  induction obj with
  | nil =>
    rintro init ⟨kv, hmem, _⟩ _
    cases hmem
  | cons hd tlist ih =>
    intro init hex hall
    rw [List.foldl_cons]
    by_cases hmatch : hd.1.length = level
    · rw [if_pos hmatch]
      by_cases hex2 : ∃ kv ∈ tlist, kv.1.length = level
      · exact ih hd.2 hex2 (fun kv hkv hl => hall kv (by simp [hkv]) hl)
      · push_neg at hex2
        rw [foldl_value_no_match tlist level hd.2 hex2]
        exact hall hd (by simp) hmatch
    · rw [if_neg hmatch]
      have hex2 : ∃ kv ∈ tlist, kv.1.length = level := by
        obtain ⟨kv, hkv, hl⟩ := hex
        rcases List.mem_cons.mp hkv with rfl | hm
        · exact absurd hl hmatch
        · exact ⟨kv, hm, hl⟩
      exact ih init hex2 (fun kv hkv hl => hall kv (by simp [hkv]) hl)

/-- Claim C4.  patricialize maps the empty map to the absent node and a
one-entry map to a leaf over the key suffix; when p is the length of the
longest nibble prefix shared from the given level by every key and p is
positive, it builds an extension node over that shared segment whose child
encodes the recursion at level plus p; and when the keys share no prefix at
the level it builds a branch whose sixteen children encode the recursions of
the nibble buckets at the next level and whose inline value comes from the
entry whose key ends at the level, defaulting to the empty-string encoding:
bucket membership is exactly the routing by the nibble at the level, the
inline value is the empty-string encoding 0x80 when no key ends at the level
and the value of the unique such entry otherwise. -/
theorem C4_patricialize_structure (keccak : List Nat → List Nat)
    (obj : List (List Nat × List Nat)) (level p : Nat) (k v : List Nat)
    (e : List Nat × List Nat) :
    patricialize keccak [] level = InternalNode.None
    ∧ patricialize keccak [(k, v)] level = InternalNode.LeafNode (k.drop level) v
    ∧ (2 ≤ obj.length → shared_at obj level p → ¬ shared_at obj level (p + 1) →
        0 < p →
        patricialize keccak obj level =
          InternalNode.ExtensionNode (((obj.headD ([], [])).1.drop level).take p)
            (encode_internal_node keccak (patricialize keccak obj (level + p)) true))
    ∧ (2 ≤ obj.length → ¬ shared_at obj level 1 →
        patricialize keccak obj level =
          InternalNode.BranchNode
            ((List.range 16).map (fun i =>
              encode_internal_node keccak
                (patricialize keccak (bucket obj level i) (level + 1)) true))
            (obj.foldl (fun acc kv => if kv.1.length = level then kv.2 else acc)
              [0x80])
        ∧ (∀ i kv, kv ∈ bucket obj level i ↔
            kv ∈ obj ∧ kv.1.length ≠ level ∧ kv.1.get? level = some i)
        ∧ ((∀ kv ∈ obj, kv.1.length ≠ level) →
            obj.foldl (fun acc kv => if kv.1.length = level then kv.2 else acc)
              [0x80] = [0x80])
        ∧ (e ∈ obj → e.1.length = level →
            (∀ kv ∈ obj, kv.1.length = level → kv.2 = e.2) →
            obj.foldl (fun acc kv => if kv.1.length = level then kv.2 else acc)
              [0x80] = e.2)) := by
  refine ⟨by simp [patricialize], by simp [patricialize], ?_, ?_⟩
  · intro hlen hs hns hp
    cases obj with
    | nil => simp at hlen
    | cons hd rest =>
      cases rest with
      | nil => simp at hlen
      | cons hd2 tl =>
        obtain ⟨ak, av⟩ := hd
        have hsl : shared_len (ak.drop level) ((ak, av) :: hd2 :: tl) level = p :=
          shared_len_eq (ak, av) (hd2 :: tl) level p hs hns
        conv_lhs => rw [patricialize]
        rw [dif_pos (by rw [hsl]; exact hp)]
        rw [hsl]
        rfl
  · intro hlen hns
    refine ⟨?_, fun i kv => mem_bucket_iff obj level i kv,
      fun hno => foldl_value_no_match obj level [0x80] hno,
      fun hmem hlev hall =>
        foldl_value_unique obj level e.2 [0x80] ⟨e, hmem, hlev⟩ hall⟩
    cases obj with
    | nil => simp at hlen
    | cons hd rest =>
      cases rest with
      | nil => simp at hlen
      | cons hd2 tl =>
        obtain ⟨ak, av⟩ := hd
        have hs0 : shared_at ((ak, av) :: hd2 :: tl) level 0 := by
          intro kv _
          exact ⟨Nat.zero_le _, by simp⟩
        have hsl : shared_len (ak.drop level) ((ak, av) :: hd2 :: tl) level = 0 :=
          shared_len_eq (ak, av) (hd2 :: tl) level 0 hs0 hns
        conv_lhs => rw [patricialize]
        rw [dif_neg (by rw [hsl]; omega)]
        rfl

/-- Witness for C4_patricialize_structure: the empty map, a one-entry map, a
two-entry map sharing the first nibble, and a two-entry map diverging at the
first nibble. -/
theorem C4_patricialize_structure_witness :
    patricialize (fun _ => List.replicate 32 0) [] 5 = InternalNode.None
    ∧ patricialize (fun _ => List.replicate 32 0) [([3], [7])] 0 =
        InternalNode.LeafNode [3] [7]
    ∧ patricialize (fun _ => List.replicate 32 0) [([1, 2], [4]), ([1, 3], [5])] 0 =
        InternalNode.ExtensionNode [1]
          (encode_internal_node (fun _ => List.replicate 32 0)
            (patricialize (fun _ => List.replicate 32 0)
              [([1, 2], [4]), ([1, 3], [5])] 1) true)
    ∧ patricialize (fun _ => List.replicate 32 0) [([0], [4]), ([1, 5], [6])] 0 =
        InternalNode.BranchNode
          ((List.range 16).map (fun i =>
            encode_internal_node (fun _ => List.replicate 32 0)
              (patricialize (fun _ => List.replicate 32 0)
                (bucket [([0], [4]), ([1, 5], [6])] 0 i) 1) true))
          [0x80] := by
  refine ⟨(C4_patricialize_structure (fun _ => List.replicate 32 0) [] 5 1 [] []
      ([], [])).1,
    (C4_patricialize_structure (fun _ => List.replicate 32 0) [] 0 1 [3] [7]
      ([], [])).2.1, ?_, ?_⟩
  · have h := (C4_patricialize_structure (fun _ => List.replicate 32 0)
      [([1, 2], [4]), ([1, 3], [5])] 0 1 [] [] ([], [])).2.2.1
      (by decide) (by decide) (by decide) (by decide)
    simpa using h
  · have h := ((C4_patricialize_structure (fun _ => List.replicate 32 0)
      [([0], [4]), ([1, 5], [6])] 0 1 [] [] ([], [])).2.2.2
      (by decide) (by decide)).1
    simpa using h

end EjitEvm
